import Mathlib

/-!
Verification of the client-side collaborative page-editing core
(scrapbox-headless-script): a shallow embedding of the O(NP) sequence
diff, the extended-change folder, the diff-to-ops translator, the commit
applier, the id factory and the push pipeline, together with proofs and
refutations of the stated properties.

Conventions of the embedding:
* JavaScript arrays that the algorithm indexes sparsely (`fp`, `path`)
  are modelled as total functions `Int → Int` initialised to `-1`
  (the source preallocates them with `fill(-1)`; all indices the
  algorithm touches stay inside the preallocated range, so the
  functional view coincides with the array view).
* The `do … while` search loop of the diff has no syntactic bound in
  the source; it is modelled with fuel `a.length + 1` (the number of
  phases an O(NP) run can need, since the edit distance is at most
  `a.length + b.length`).  `none` models a run that would not have
  stopped by then.
* Generators are modelled as functions returning the list of yielded
  elements, or `Except` when the generator body can throw: a thrown
  exception is `Except.error` with the thrown message.
* `createNewLineId` reads the wall clock and a random number; both are
  passed as explicit arguments (`now`, `rand`).
-/

namespace Scrapbox

/-! ## SES diff (diff.ts, `diff`) -/

/-- One element of the shortest edit script, as the source's tagged union
`Change<T> = Added | Deleted | Common`. -/
inductive Change (α : Type) where
  | added (value : α)
  | deleted (value : α)
  | common (value : α)
deriving DecidableEq, Repr

/-- The folder's output alphabet, the source's `ExtendedChange<T>`:
a `Change` or a fused `replaced` carrying the new and the old value. -/
inductive ExtendedChange (α : Type) where
  | added (value : α)
  | deleted (value : α)
  | common (value : α)
  | replaced (value : α) (oldValue : α)
deriving DecidableEq, Repr

/-- An (x, y) endpoint recorded on the path trail (`Position`). -/
structure DiffPos where
  x : Int
  y : Int
deriving DecidableEq, Repr

/-- JavaScript `l[i]` for a possibly negative index: `none` models
`undefined`. -/
def getI (l : List α) (i : Int) : Option α :=
  if i < 0 then none else l[i.toNat]?

/-- JavaScript `l[i]` where the element is then used as a value; the
`default` stands for the (never reached in a terminating run) undefined. -/
def getID [Inhabited α] (l : List α) (i : Int) : α :=
  (getI l i).getD default

/-- Pointwise update of a functionally modelled array. -/
def updF (f : Int → Int) (i v : Int) : Int → Int :=
  fun j => if j = i then v else f j

/-- The mutable state the source's `diff` closes over: the furthest-point
array `fp`, the diagonal-to-trail index `path`, and the trail `pathpos`
(in push order). -/
structure DiffSt where
  fp : Int → Int
  path : Int → Int
  pathpos : List (DiffPos × Int)

/-- The snake's inner `while` loop: extend the diagonal run while
`x < a.length && y < b.length && a[x] === b[y]`.  Fuel `b.length + 1`
suffices because `y` grows each step and must stay below `b.length`. -/
def snakeExt [DecidableEq α] (a b : List α) : Nat → Int → Int → Int × Int
  | 0, x, y => (x, y)
  | n + 1, x, y =>
    if x < (a.length : Int) ∧ y < (b.length : Int) ∧ getI a x = getI b y then
      snakeExt a b n (x + 1) (y + 1)
    else (x, y)

/-- The source's `snake(k, p, pp)`: start from the further of the two
neighbouring diagonals, extend the diagonal run, record the endpoint and
its back-link on the trail, and return the reached `y`. -/
def snake [DecidableEq α] (a b : List α) (offset k p pp : Int) (st : DiffSt) :
    DiffSt × Int :=
  let y0 := max p pp
  let x0 := y0 - k
  let e := snakeExt a b (b.length + 1) x0 y0
  let prev := st.path (k + (if p > pp then -1 else 1) + offset)
  let st' : DiffSt :=
    { fp := st.fp
      path := updF st.path (k + offset) (st.pathpos.length : Int)
      pathpos := st.pathpos ++ [(⟨e.1, e.2⟩, prev)] }
  (st', e.2)

/-- One `fp[k + offset] = snake(k, fp[k-1+offset] + 1, fp[k+1+offset])`
assignment, folded over a list of diagonals `k`. -/
def diffStep [DecidableEq α] (a b : List α) (offset : Int) (ks : List Int)
    (st : DiffSt) : DiffSt :=
  ks.foldl
    (fun st k =>
      let r := snake a b offset k (st.fp (k - 1 + offset) + 1) (st.fp (k + 1 + offset)) st
      { r.1 with fp := updF r.1.fp (k + offset) r.2 })
    st

/-- Diagonals of the ascending loop of one phase: `k = -p … delta - 1`. -/
def ascKs (p delta : Int) : List Int :=
  (List.range (delta + p).toNat).map (fun i => -p + Int.ofNat i)

/-- Diagonals of the descending loop of one phase: `k = delta + p … delta + 1`. -/
def descKs (p delta : Int) : List Int :=
  (List.range p.toNat).map (fun i => delta + p - Int.ofNat i)

/-- The `do … while (fp[delta + offset] !== b.length)` loop: each pass
increments `p`, runs the ascending loop, the descending loop, and the
`k = delta` snake.  Returns the final `p` and state, or `none` when the
fuel (which bounds the number of phases) runs out. -/
def onpLoop [DecidableEq α] (a b : List α) (offset delta : Int) :
    Nat → Int → DiffSt → Option (Int × DiffSt)
  | 0, _, _ => none
  | fuel + 1, p, st =>
    let p1 := p + 1
    let st1 := diffStep a b offset (ascKs p1 delta ++ descKs p1 delta ++ [delta]) st
    if st1.fp (delta + offset) = (b.length : Int) then some (p1, st1)
    else onpLoop a b offset delta fuel p1 st1

/-- Reconstruction of `epc`: follow the back-links from the trail entry of
diagonal `delta`, collecting endpoints, until the link is `-1`.  The links
strictly decrease, so `pathpos.length + 1` steps of fuel suffice. -/
def buildEpc (pathpos : List (DiffPos × Int)) : Nat → Int → List DiffPos
  | 0, _ => []
  | n + 1, r =>
    if r = -1 then []
    else
      match getI pathpos r with
      | none => []
      | some pr => pr.1 :: buildEpc pathpos n pr.2

/-- The record `diff` returns (its lazy `buildSES` is the separate
function `buildSES` below, applied to this record). -/
structure DiffResult (α : Type) where
  reversed : Bool
  a : List α
  b : List α
  editDistance : Int
  epc : List DiffPos
deriving Repr

/-- The source's `diff(left, right)`: swap so that `a` is the shorter
side, run the O(NP) phase loop, reconstruct the endpoint chain.  `none`
models a run of the unbounded `do … while` that would not terminate. -/
def diff [DecidableEq α] (left right : List α) : Option (DiffResult α) :=
  let reversed := (right.length : Int) < (left.length : Int)
  let a := if reversed then right else left
  let b := if reversed then left else right
  let offset : Int := (a.length : Int) + 1
  let delta : Int := (b.length : Int) - (a.length : Int)
  let st0 : DiffSt := ⟨fun _ => -1, fun _ => -1, []⟩
  match onpLoop a b offset delta (a.length + 1) (-1) st0 with
  | none => none
  | some (p, st) =>
    some
      { reversed := reversed
        a := a
        b := b
        editDistance := delta + 2 * p
        epc := buildEpc st.pathpos (st.pathpos.length + 1) (st.path (delta + offset)) }

/-- The generator body's inner `while (xIndex < x || yIndex < y)` loop of
`buildSES`, emitting added/deleted/common steps toward the endpoint
`(x, y)`; returns the emitted run and the updated indices. -/
def sesSegment [Inhabited α] (a b : List α) (reversed : Bool) :
    Nat → Int → Int → Int → Int → List (Change α) × Int × Int
  | 0, xI, yI, _, _ => ([], xI, yI)
  | n + 1, xI, yI, x, y =>
    if xI < x ∨ yI < y then
      if y - x > yI - xI then
        let c := if reversed then Change.deleted (getID b yI) else Change.added (getID b yI)
        let r := sesSegment a b reversed n xI (yI + 1) x y
        (c :: r.1, r.2)
      else if y - x < yI - xI then
        let c := if reversed then Change.added (getID a xI) else Change.deleted (getID a xI)
        let r := sesSegment a b reversed n (xI + 1) yI x y
        (c :: r.1, r.2)
      else
        let c := Change.common (getID a xI)
        let r := sesSegment a b reversed n (xI + 1) (yI + 1) x y
        (c :: r.1, r.2)
    else ([], xI, yI)

/-- The generator body of `buildSES`: walk the endpoints in reverse push
order (`reverse(epc)`), emitting each segment. -/
def buildSESGo [Inhabited α] (a b : List α) (reversed : Bool) :
    List DiffPos → Int → Int → List (Change α)
  | [], _, _ => []
  | pos :: rest, xI, yI =>
    let r := sesSegment a b reversed (a.length + b.length + 2) xI yI pos.x pos.y
    r.1 ++ buildSESGo a b reversed rest r.2.1 r.2.2

/-- The full edit script `buildSES()` yields, as a list. -/
def buildSES [Inhabited α] (d : DiffResult α) : List (Change α) :=
  buildSESGo d.a d.b d.reversed d.epc.reverse 0 0

/-! ## Extended-change folder (diff.ts, `toExtendedChanges` / `makeReplaced`) -/

instance [Inhabited α] : Inhabited (Change α) :=
  ⟨Change.common default⟩

instance [Inhabited α] : Inhabited (ExtendedChange α) :=
  ⟨ExtendedChange.common default⟩

/-- The payload of a `Change` (every constructor carries one `value`). -/
def changeValue : Change α → α
  | .added v => v
  | .deleted v => v
  | .common v => v

/-- The injection of a staged `Change` into the folder's output when it is
emitted as-is. -/
def toExt : Change α → ExtendedChange α
  | .added v => .added v
  | .deleted v => .deleted v
  | .common v => .common v

/-- The source's `makeReplaced(left, right)`: `value` comes from whichever
side is the `added` one, `oldValue` from the other. -/
def makeReplaced : Change α → Change α → ExtendedChange α
  | .added v, r => .replaced v (changeValue r)
  | l, r => .replaced (changeValue r) (changeValue l)

/-- True when two staged changes carry the same tag (the source compares
`stack0[stack0.length - 1].type === change.type`). -/
def sameKind : Change α → Change α → Bool
  | .added _, .added _ => true
  | .deleted _, .deleted _ => true
  | .common _, .common _ => true
  | _, _ => false

/-- The folder's `flush()`: with `n0 = stack0.length` and
`n1 = stack1.length`, if `n0 > n1` emit the first `n0 - n1` items of
`stack0` as-is then pair the rest with `stack1`; otherwise pair `stack0`
with the first `n0` items of `stack1` and emit the rest of `stack1`
as-is.  Written, like the source, with index loops. -/
def flushEmit [Inhabited α] (s0 s1 : List (Change α)) : List (ExtendedChange α) :=
  if s1.length < s0.length then
    let d := s0.length - s1.length
    (List.range d).map (fun i => toExt (s0.getD i default)) ++
      (List.range s1.length).map (fun i => makeReplaced (s0.getD (i + d) default) (s1.getD i default))
  else
    (List.range s0.length).map (fun i => makeReplaced (s0.getD i default) (s1.getD i default)) ++
      (List.range (s1.length - s0.length)).map (fun i => toExt (s1.getD (s0.length + i) default))

/-- The loop body of `toExtendedChanges`, carrying the two staging stacks:
a `common` flushes and is emitted; otherwise the change is staged into
`stack0` (same kind as its last item, flushing first when `stack1` is
non-empty) or into `stack1`. -/
def toExtGo [Inhabited α] (s0 s1 : List (Change α)) :
    List (Change α) → List (ExtendedChange α)
  | [] => flushEmit s0 s1
  | c :: rest =>
    match c with
    | .common v => flushEmit s0 s1 ++ ExtendedChange.common v :: toExtGo [] [] rest
    | _ =>
      if s0.isEmpty then toExtGo [c] s1 rest
      else if sameKind (s0.getLastD c) c then
        if s1.isEmpty then toExtGo (s0 ++ [c]) s1 rest
        else flushEmit s0 s1 ++ toExtGo [c] [] rest
      else toExtGo s0 (s1 ++ [c]) rest

/-- The source's `toExtendedChanges(changes)` as a list transformer. -/
def toExtendedChanges [Inhabited α] (changes : List (Change α)) :
    List (ExtendedChange α) :=
  toExtGo [] [] changes

/-! ## Change-ops and the diff-to-ops translator (patch.ts, `diffToChanges`) -/

/-- A change-op of a commit batch (the socket `Change` union): the three
anchored line ops and the metadata ops the applier ignores. -/
inductive ChangeOp where
  | insertOp (anchor : String) (newId : String) (text : String)
  | updateOp (anchor : String) (text : String)
  | deleteOp (anchor : String)
  | titleOp (text : String)
  | descriptionsOp (texts : List String)
  | deletedOp
deriving DecidableEq, Repr

/-- The slice of a `Line` that `diffToChanges` reads (`Omit<Line, …>`). -/
structure IdText where
  id : String
  text : String
deriving DecidableEq, Repr

/-- The cursor refresh `lineId = left[lineNo]?.id ?? "_end"`. -/
def lineIdAt (left : List IdText) (lineNo : Nat) : String :=
  match left[lineNo]? with
  | some l => l.id
  | none => "_end"

/-- True for an `added` stream element (the source's
`change.type !== "added"` test, negated). -/
def isAddedExt : ExtendedChange α → Bool
  | .added _ => true
  | _ => false

/-- The `for (const change of …)` loop of `diffToChanges`: `counter`
numbers the `createNewLineId` calls (the ids are supplied by `newIds`),
`lineNo`/`lineId` are the pre-image cursor.  Note that the source
advances `lineNo` after every element, `added` included. -/
def d2cGo (newIds : Nat → String) (left : List IdText) :
    List (ExtendedChange String) → Nat → Nat → String → Except String (List ChangeOp)
  | [], _, _, _ => .ok []
  | c :: rest, counter, lineNo, lineId =>
    if isAddedExt c = false ∧ lineId = "_end" then
      .error "lineId cannot be \"_end\" yet"
    else
      let step : List ChangeOp × Nat :=
        match c with
        | .added v => ([ChangeOp.insertOp lineId (newIds counter) v], counter + 1)
        | .deleted _ => ([ChangeOp.deleteOp lineId], counter)
        | .replaced v _ => ([ChangeOp.updateOp lineId v], counter)
        | .common _ => ([], counter)
      match d2cGo newIds left rest step.2 (lineNo + 1) (lineIdAt left (lineNo + 1)) with
      | .error e => .error e
      | .ok tail => .ok (step.1 ++ tail)

/-- The source's `diffToChanges(left, right, { userId })`: run the diff on
the texts, fold it, and walk the stream emitting anchored ops.  The
generator body runs `diff` first, then reads `left[0].id` — which throws
on an empty pre-image (modelled as the error below) — before any stream
element is examined. -/
def diffToChanges (newIds : Nat → String) (left : List IdText) (right : List String) :
    Except String (List ChangeOp) :=
  match diff (left.map (fun l => l.text)) right with
  | none => .error "diff did not terminate"
  | some d =>
    match left with
    | [] => .error "TypeError: left[0] is undefined"
    | l0 :: _ => d2cGo newIds left (toExtendedChanges (buildSES d)) 0 0 l0.id

/-! ## Id factory (id.ts, `createNewLineId`; `getUnixTimeFromId` modelled) -/

/-- One lowercase hex digit, as JavaScript `Number.toString(16)` writes it. -/
def hexDigit (n : Nat) : Char :=
  if n < 10 then Char.ofNat (48 + n) else Char.ofNat (87 + n)

/-- The hex digits of `n`, most significant first, empty for `0`; the fuel
bounds the digit count. -/
def hexChars : Nat → Nat → List Char
  | 0, _ => []
  | fuel + 1, n => if n = 0 then [] else hexChars fuel (n / 16) ++ [hexDigit (n % 16)]

/-- JavaScript `n.toString(16)` for a natural number below `16 ^ 16`. -/
def toHex (n : Nat) : List Char :=
  if n = 0 then ['0'] else hexChars 16 n

/-- The source's `zero(s)`: `padStart(8, "0")`. -/
def padLeft8 (l : List Char) : List Char :=
  List.replicate (8 - l.length) '0' ++ l

/-- JavaScript `slice(-n)` on a string: the last `n` characters (the whole
string when shorter). -/
def takeLast (n : Nat) (l : List Char) : List Char :=
  l.drop (l.length - n)

/-- The numeric value of a hex digit character (0 for others). -/
def hexVal (c : Char) : Nat :=
  if 48 ≤ c.toNat ∧ c.toNat ≤ 57 then c.toNat - 48
  else if 97 ≤ c.toNat ∧ c.toNat ≤ 102 then c.toNat - 87
  else 0

/-- True for a lowercase hex digit character. -/
def isHexDigitCh (c : Char) : Bool :=
  (48 ≤ c.toNat ∧ c.toNat ≤ 57) ∨ (97 ≤ c.toNat ∧ c.toNat ≤ 102)

/-- The value of a big-endian hex digit string. -/
def parseHex (l : List Char) : Nat :=
  l.foldl (fun acc c => acc * 16 + hexVal c) 0

/-- The source's `createNewLineId(userId)`:
`zero(time).slice(-8) + userId.slice(-6) + "0000" + zero(rand)`, where
`time` is the wall clock in unix seconds and
`rand = Math.floor(0xFFFFFE * Math.random())`; both are explicit
arguments here. -/
def createNewLineId (now rand : Nat) (userId : String) : String :=
  String.mk (takeLast 8 (padLeft8 (toHex now)) ++ takeLast 6 userId.data ++
    List.replicate 4 '0' ++ padLeft8 (toHex rand))

/-- Modelled from the spec: `getUnixTimeFromId` is imported by
applyCommit.ts from an id.ts revision that is not among the source files;
§4.5 defines it as parsing the first 8 hex chars of an id as unix
seconds. -/
def getUnixTimeFromId (id : String) : Nat :=
  parseHex (id.data.take 8)

/-! ## Commit applier (applyCommit.ts, `applyCommit`) -/

/-- A page line as the applier sees it.  `updated : Option Nat` models
that JavaScript stores `undefined` there when the caller omitted the
`updated` parameter (mod.ts's trial applications do). -/
structure Line where
  id : String
  text : String
  userId : String
  created : Nat
  updated : Option Nat
deriving DecidableEq, Repr

instance : Inhabited Line :=
  ⟨⟨"", "", "", 0, none⟩⟩

/-- The `updated` parameter of `ApplyCommitProp`: a unix time, an id
carrying one, or absent (`undefined`). -/
inductive UpdatedParam where
  | num (n : Nat)
  | fromId (id : String)
  | undef
deriving DecidableEq, Repr

/-- The value the applier assigns to `updated` on an `_update`:
`typeof updated === "string" ? getUnixTimeFromId(updated) : updated`. -/
def updatedValue : UpdatedParam → Option Nat
  | .num n => some n
  | .fromId id => some (getUnixTimeFromId id)
  | .undef => none

/-- The error the applier throws:
`RangeError("No line whose id is " + lineId + " found.")`. -/
def missingMsg (lineId : String) : String :=
  "No line whose id is " ++ lineId ++ " found."

/-- The applier's `getPos`: `findIndex` of the first line with the given
id (written recursively; `none` models the `-1` the applier turns into a
`RangeError`). -/
def getPos (lines : List Line) (lineId : String) : Option Nat :=
  match lines with
  | [] => none
  | l :: rest => if l.id = lineId then some 0 else (getPos rest lineId).map (· + 1)

/-- `splice(p, 0, x)`. -/
def spliceIns (l : List Line) (p : Nat) (x : Line) : List Line :=
  l.take p ++ x :: l.drop p

/-- `splice(p, 1)`. -/
def spliceDel (l : List Line) (p : Nat) : List Line :=
  l.take p ++ l.drop (p + 1)

/-- One iteration of the applier's `for` loop on the value level: the
list the applier's local `newLines` holds after this op.  Metadata ops
(`title`, `descriptions`, `deleted`) fall through all three `in` tests
and leave the list unchanged. -/
def applyOne (up : UpdatedParam) (userId : String) (lines : List Line) :
    ChangeOp → Except String (List Line)
  | .insertOp anchor newId text =>
    let created := getUnixTimeFromId newId
    let newLine : Line := ⟨newId, text, userId, created, some created⟩
    if anchor = "_end" then .ok (lines ++ [newLine])
    else
      match getPos lines anchor with
      | none => .error (missingMsg anchor)
      | some p => .ok (spliceIns lines p newLine)
  | .updateOp anchor text =>
    match getPos lines anchor with
    | none => .error (missingMsg anchor)
    | some p =>
      let old := lines.getD p default
      .ok (lines.set p { old with text := text, updated := updatedValue up })
  | .deleteOp anchor =>
    match getPos lines anchor with
    | none => .error (missingMsg anchor)
    | some p => .ok (spliceDel lines p)
  | _ => .ok lines

/-- The applier's loop over the batch, left to right; the first missing
anchor aborts with its `RangeError`.  This is the value of the array
`applyCommit` returns (the in-place aliasing of `_update` is modelled
separately by `applyCommitShared` below). -/
def applyCommit (up : UpdatedParam) (userId : String) (lines : List Line) :
    List ChangeOp → Except String (List Line)
  | [] => .ok lines
  | c :: rest =>
    match applyOne up userId lines c with
    | .error e => .error e
    | .ok lines' => applyCommit up userId lines' rest

/-! ## Aliasing-aware applier and the Page Room's trial application
(applyCommit.ts + mod.ts `push`, steps 1–3)

`applyCommit` starts from `const newLines = [...lines]` — a SHALLOW copy:
the copied array holds the same line objects as the caller's array.
`_insert`/`_delete` splice only the copy, but `_update` assigns
`newLines[position].text = …`, mutating an object both arrays share.  To
express what the caller's array sees afterwards, lines are modelled as
references (indices) into a heap of line objects. -/

/-- Heap of line objects; a line reference is an index into it. -/
abbrev LineHeap := List Line

/-- `getPos` over references: index (within `refs`) of the first
referenced object whose id matches. -/
def getPosH (heap : LineHeap) (refs : List Nat) (lineId : String) : Option Nat :=
  match refs with
  | [] => none
  | r :: rest =>
    if (heap.getD r default).id = lineId then some 0
    else (getPosH heap rest lineId).map (· + 1)

/-- One op over the heap model: returns the heap and the applier's local
`newLines` reference list after the op.  `_insert` allocates a fresh
object; `_update` mutates the referenced object in place (visible through
every array holding that reference); `_delete` splices only the
reference list. -/
def applyOneShared (up : UpdatedParam) (userId : String) (heap : LineHeap)
    (refs : List Nat) : ChangeOp → Except String (LineHeap × List Nat)
  | .insertOp anchor newId text =>
    let created := getUnixTimeFromId newId
    let newLine : Line := ⟨newId, text, userId, created, some created⟩
    if anchor = "_end" then .ok (heap ++ [newLine], refs ++ [heap.length])
    else
      match getPosH heap refs anchor with
      | none => .error (missingMsg anchor)
      | some p => .ok (heap ++ [newLine], refs.take p ++ heap.length :: refs.drop p)
  | .updateOp anchor text =>
    match getPosH heap refs anchor with
    | none => .error (missingMsg anchor)
    | some p =>
      let r := refs.getD p 0
      let old := heap.getD r default
      .ok (heap.set r { old with text := text, updated := updatedValue up }, refs)
  | .deleteOp anchor =>
    match getPosH heap refs anchor with
    | none => .error (missingMsg anchor)
    | some p => .ok (heap, refs.take p ++ refs.drop (p + 1))
  | _ => .ok (heap, refs)

/-- The applier's loop over the heap model. -/
def applyCommitSharedGo (up : UpdatedParam) (userId : String) (heap : LineHeap)
    (refs : List Nat) : List ChangeOp → Except String (LineHeap × List Nat)
  | [] => .ok (heap, refs)
  | c :: rest =>
    match applyOneShared up userId heap refs c with
    | .error e => .error e
    | .ok hr => applyCommitSharedGo up userId hr.1 hr.2 rest

/-- `applyCommit(lines, changes, prop)` in the heap model: the caller's
array is references `0 … lines.length - 1` into a heap holding its
objects; the shallow copy `[...lines]` starts as the same reference
list. -/
def applyCommitShared (up : UpdatedParam) (userId : String) (lines : List Line)
    (changes : List ChangeOp) : Except String (LineHeap × List Nat) :=
  applyCommitSharedGo up userId lines (List.range lines.length) changes

/-- Read a reference list through a heap. -/
def readRefs (heap : LineHeap) (refs : List Nat) : List Line :=
  refs.map (fun r => heap.getD r default)

/-- True for a `title` op. -/
def isTitleOp : ChangeOp → Bool
  | .titleOp _ => true
  | _ => false

/-- Steps 1–3 of the Page Room's `push` (mod.ts): trial-apply the batch
(`applyCommit(lines, changes, { userId })` — no `updated`), then append a
`title` op when `lines[0].text !== changedLines[0].text || !created`, and
a `descriptions` op when the joined line-2…6 texts differ.  Both reads of
`lines` happen AFTER the trial application, through the same heap.
Returns (what the caller's `lines` array now shows, the post-image
`changedLines`, the final batch). -/
def pushPrepare (userId : String) (created : Bool) (lines : List Line)
    (changes : List ChangeOp) : Except String (List Line × List Line × List ChangeOp) :=
  match applyCommitShared UpdatedParam.undef userId lines changes with
  | .error e => .error e
  | .ok hr =>
    let linesNow := readRefs hr.1 (List.range lines.length)
    let changedLines := readRefs hr.1 hr.2
    let changes1 :=
      if (linesNow.getD 0 default).text ≠ (changedLines.getD 0 default).text ∨ created = false then
        changes ++ [ChangeOp.titleOp (changedLines.getD 0 default).text]
      else changes
    let oldDescriptions := ((linesNow.drop 1).take 5).map (fun l => l.text)
    let newDescriptions := ((changedLines.drop 1).take 5).map (fun l => l.text)
    let changes2 :=
      if String.intercalate "\n" oldDescriptions ≠ String.intercalate "\n" newDescriptions then
        changes1 ++ [ChangeOp.descriptionsOp newDescriptions]
      else changes1
    .ok (linesNow, changedLines, changes2)

/-! ## Commit submission (mod.ts, `pushCommit` / `pushWithRetry`)

The socket and the page-fetch service are modelled by an oracle: the
result of the n-th `commit` request (`some commitId` = resolved,
`none` = rejected) and the head commit id that the i-th
`ensureEditablePage` refetch reports. -/

/-- The server as the push pipeline observes it. -/
structure PushOracle where
  commitResults : Nat → Option String
  headIds : Nat → String

/-- The source's `pushCommit(request, changes, commitInit)`: an empty
batch short-circuits to `{ commitId: parentId }` without issuing a
request; otherwise the next request is consumed.  `n` counts the commit
requests issued so far; the returned `Nat` is the updated count. -/
def pushCommit (o : PushOracle) (n : Nat) (changes : List ChangeOp)
    (parentId : String) : Except Unit String × Nat :=
  if changes.isEmpty then (.ok parentId, n)
  else
    match o.commitResults n with
    | some commitId => (.ok commitId, n + 1)
    | none => (.error (), n + 1)

/-- The retry `for` loop of `pushWithRetry`: refetch the head, reset
`parentId`, resubmit; `break` on success, `continue` on failure.
Returns the local `parentId` after the loop and the request count. -/
def retryLoop (o : PushOracle) (changes : List ChangeOp) :
    Nat → Nat → Nat → String → String × Nat
  | 0, _, n, parentId => (parentId, n)
  | rem + 1, i, n, _ =>
    let parentId1 := o.headIds i
    match pushCommit o n changes parentId1 with
    | (.ok commitId, n') => (commitId, n')
    | (.error _, n') => retryLoop o changes rem (i + 1) n' parentId1

/-- The source's `pushWithRetry`: try once; on failure run the retry loop
and then — unconditionally, even after a `break` on a successful
retry — `throw Error("Faild to retry pushing.")`.  Returns the result
and the number of commit requests issued. -/
def pushWithRetry (o : PushOracle) (changes : List ChangeOp) (parentId : String)
    (retry : Nat) : Except String String × Nat :=
  match pushCommit o 0 changes parentId with
  | (.ok commitId, n) => (.ok commitId, n)
  | (.error _, n) =>
    let r := retryLoop o changes retry 0 n parentId
    (.error "Faild to retry pushing.", r.2)

/-! ## Spec-side definitions

These re-state parts of the specification in its own words, to be
compared with the embedded source functions. -/

/-- Spec side, §3/§4.4: insert a new id before the first occurrence of
the anchor. -/
def insertBeforeId (ids : List String) (anchor newId : String) : List String :=
  match ids with
  | [] => []
  | i :: rest =>
    if i = anchor then newId :: i :: rest else i :: insertBeforeId rest anchor newId

/-- Spec side, §3/§4.4: remove the first occurrence of the anchor. -/
def removeFirstId (ids : List String) (anchor : String) : List String :=
  match ids with
  | [] => []
  | i :: rest => if i = anchor then rest else i :: removeFirstId rest anchor

/-- Spec side (claim C5): walking the batch left to right over the id
list of the current state, the first `_insert` (with anchor other than
`"_end"`), `_update` or `_delete` whose anchor is absent from the list
produced by all prior ops — `none` when every anchor resolves.  Metadata
ops are skipped. -/
def firstMissingAnchor (ids : List String) : List ChangeOp → Option String
  | [] => none
  | ChangeOp.insertOp anchor newId _ :: rest =>
    if anchor = "_end" then firstMissingAnchor (ids ++ [newId]) rest
    else if anchor ∈ ids then firstMissingAnchor (insertBeforeId ids anchor newId) rest
    else some anchor
  | ChangeOp.updateOp anchor _ :: rest =>
    if anchor ∈ ids then firstMissingAnchor ids rest else some anchor
  | ChangeOp.deleteOp anchor :: rest =>
    if anchor ∈ ids then firstMissingAnchor (removeFirstId ids anchor) rest
    else some anchor
  | _ :: rest => firstMissingAnchor ids rest

/-- Spec side (claim C7): the flush rule stated with `take`, `drop` and
`zipWith` — if `n0 > n1` emit the first `n0 − n1` items of `S0` as-is
then pair the rest with `S1`; otherwise pair `S0` with `S1[..n0]` and
emit `S1[n0..]` as-is. -/
def specFlush [Inhabited α] (s0 s1 : List (Change α)) : List (ExtendedChange α) :=
  if s1.length < s0.length then
    (s0.take (s0.length - s1.length)).map toExt ++
      List.zipWith makeReplaced (s0.drop (s0.length - s1.length)) s1
  else
    List.zipWith makeReplaced s0 (s1.take s0.length) ++ (s1.drop s0.length).map toExt

/-! ## Claim C1: the diff-to-ops round trip (P1) fails on the code

`diffToChanges` advances its pre-image cursor (`lineNo++`) after EVERY
stream element, `added` included, so any insertion that is not at the end
of the page spuriously consumes a pre-image line; when a later non-added
element is then processed at the exhausted cursor the generator throws
instead of producing ops.  The theorem evaluates the pipeline at the
single-line page `[{id: "L1", text: "a"}]` patched to `["x", "a"]`. -/

/-- Claim C1: `diffToChanges([{id:"L1",text:"a"}], ["x","a"], {userId})`
throws `lineId cannot be "_end" yet` (for every id supply), so applying
its output via applyCommit cannot succeed, contradicting P1. -/
theorem diffToChanges_prepend_throws (newIds : Nat → String) :
    diffToChanges newIds [⟨"L1", "a"⟩] ["x", "a"] =
      .error "lineId cannot be \"_end\" yet" := rfl

/-! ## Claim C2: the cursor IS advanced after an `added` element -/

/-- Claim C2: on the pre-image `[{L1, "a"}, {L2, "b"}]` and post-image
`["a", "x", "b"]`, the stream is `common a, added x, common b`; the
emitted op is indeed `_insert` at the cursor (`L2`), but the cursor then
advances past `L2`, so the final `common b` is processed at `"_end"` and
the generator throws — the next stream element is NOT processed against
the same pre-image line. -/
theorem diffToChanges_added_advances_cursor (newIds : Nat → String) :
    diffToChanges newIds [⟨"L1", "a"⟩, ⟨"L2", "b"⟩] ["a", "x", "b"] =
      .error "lineId cannot be \"_end\" yet" := rfl

/-! ## Claim C3: `pushWithRetry` throws even when a retry succeeds -/

/-- Claim C3: with a server that rejects the first commit request and
resolves the second with `"c2"`, `pushWithRetry` issues exactly two
commit requests — the failed initial one and the successful
resubmission — and still ends in `throw Error("Faild to retry
pushing.")`: the unconditional `throw` after the retry loop discards the
successful retry's commit id. -/
theorem pushWithRetry_throws_after_successful_retry :
    pushWithRetry ⟨fun n => if n = 0 then none else some "c2", fun _ => "h1"⟩
      [ChangeOp.deleteOp "x"] "p1" 3 =
      (.error "Faild to retry pushing.", 2) := rfl

/-! ## Claim C4: the trial application mutates the mirror through the
shallow copy, and the title op is skipped -/

/-- Claim C4: pushing `[{_update: "L1", lines: {text: "new"}}]` on the
mirror `[{L1, "old"}]` with `created = true`: `applyCommit`'s shallow
copy shares the line object, so the `_update` mutates the mirror (its
view after the trial shows `"new"`, not `"old"`), and the title check
`lines[0].text !== changedLines[0].text` then compares the mutated
object with itself, so NO `title` op is appended although the post-image
title `"new"` differs from the pre-batch title `"old"`. -/
theorem push_trial_mutates_mirror_and_skips_title :
    pushPrepare "u1" true [⟨"L1", "old", "u0", 100, some 100⟩]
        [ChangeOp.updateOp "L1" "new"] =
      .ok ([⟨"L1", "new", "u0", 100, none⟩], [⟨"L1", "new", "u0", 100, none⟩],
        [ChangeOp.updateOp "L1" "new"]) := rfl

/-! ## Claim C9: an empty batch issues no request -/

/-- Claim C9: `pushCommit` with an empty change batch returns
`ok parentId` and leaves the request count unchanged — no socket request
is issued — for every oracle, count and parent id. -/
theorem pushCommit_empty_changes (o : PushOracle) (n : Nat) (parentId : String) :
    pushCommit o n [] parentId = (.ok parentId, n) := rfl

/-! ## Claim C8: the minted line id is 26 characters, not 24 -/

/-- Claim C8, counterexample: even for a 24-hex-char userId the id has
26 characters (the source pads the random component to 8 hex digits with
`zero`, not 6), where the claim demands 24. -/
theorem createNewLineId_length_cex :
    (createNewLineId 1700000000 12345 "5f2c1234567890abcdef1234").length = 26 := rfl

/-! ## Claim C7: the flush rule -/

theorem range_map_getD_take [Inhabited β] (g : β → γ) :
    ∀ (n : Nat) (l : List β), n ≤ l.length →
      (List.range n).map (fun i => g (l.getD i default)) = (l.take n).map g := by
  intro n
  induction n with
  | zero => intro l _; simp
  | succ n ih =>
    intro l h
    have hn : n < l.length := Nat.lt_of_lt_of_le (Nat.lt_succ_self n) h
    rw [List.range_succ, List.map_append, ih l (Nat.le_of_lt hn), List.take_succ,
      List.map_append]
    simp [List.getD_eq_getElem?_getD, List.getElem?_eq_getElem hn]

theorem range_map_getD_drop [Inhabited β] (g : β → γ) :
    ∀ (n k : Nat) (l : List β), k + n = l.length →
      (List.range n).map (fun i => g (l.getD (k + i) default)) = (l.drop k).map g := by
  intro n
  induction n with
  | zero =>
    intro k l h
    have hk : l.length ≤ k := by omega
    simp [List.drop_of_length_le hk]
  | succ n ih =>
    intro k l h
    have hk : k < l.length := by omega
    rw [List.range_succ_eq_map, List.map_cons, List.map_map]
    have h2 : (List.range n).map ((fun i => g (l.getD (k + i) default)) ∘ Nat.succ) =
        (List.range n).map (fun i => g (l.getD (k + 1 + i) default)) := by
      refine List.map_congr_left ?_
      intro i _
      simp only [Function.comp]
      have : k + Nat.succ i = k + 1 + i := by omega
      rw [this]
    rw [h2, ih (k + 1) l (by omega), List.drop_eq_getElem_cons hk, List.map_cons]
    simp [List.getD_eq_getElem?_getD, List.getElem?_eq_getElem hk]

theorem range_map_getD_zip [Inhabited β] (f : β → β → γ) :
    ∀ (m l : List β) (k : Nat), k + m.length ≤ l.length →
      (List.range m.length).map (fun i => f (l.getD (k + i) default) (m.getD i default)) =
        List.zipWith f (l.drop k) m := by
  intro m
  induction m with
  | nil => intro l k _; simp
  | cons x xs ih =>
    intro l k h
    have hk : k < l.length := by simp at h; omega
    rw [List.length_cons, List.range_succ_eq_map, List.map_cons, List.map_map]
    have h2 : (List.range xs.length).map
          ((fun i => f (l.getD (k + i) default) ((x :: xs).getD i default)) ∘ Nat.succ) =
        (List.range xs.length).map (fun i => f (l.getD (k + 1 + i) default) (xs.getD i default)) := by
      refine List.map_congr_left ?_
      intro i _
      simp only [Function.comp]
      have : k + Nat.succ i = k + 1 + i := by omega
      rw [this]
      rfl
    rw [h2, ih l (k + 1) (by simp at h ⊢; omega), List.drop_eq_getElem_cons hk]
    simp [List.zipWith, List.getD_eq_getElem?_getD, List.getElem?_eq_getElem hk]

theorem zipWith_take_right (f : β → β → γ) :
    ∀ (l m : List β), List.zipWith f l (m.take l.length) = List.zipWith f l m := by
  intro l
  induction l with
  | nil => intro m; simp
  | cons x xs ih =>
    intro m
    cases m with
    | nil => simp
    | cons y ys => simp [List.zipWith, ih ys]

/-- Claim C7: at every flush with staging buffers `s0` and `s1`, the
emitted run is exactly the spec's — if `n0 > n1` the first `n0 − n1`
items of `s0` as-is followed by the rest of `s0` paired with `s1`,
otherwise `s0` paired with `s1[..n0]` followed by `s1[n0..]` as-is — and
in every pair the `replaced.value` is the added side's value and
`replaced.oldValue` the deleted side's, whichever buffer held which. -/
theorem toExtendedChanges_flush_spec (α : Type) (inst : Inhabited α)
    (s0 s1 : List (Change α)) :
    flushEmit s0 s1 = specFlush s0 s1 ∧
      (∀ v w : α,
        makeReplaced (Change.added v) (Change.deleted w) = ExtendedChange.replaced v w ∧
        makeReplaced (Change.deleted w) (Change.added v) = ExtendedChange.replaced v w) := by
  constructor
  · unfold flushEmit specFlush
    by_cases h : s1.length < s0.length
    · simp only [if_pos h]
      have e1 := range_map_getD_take (toExt (α := α)) (s0.length - s1.length) s0 (by omega)
      have e2 := range_map_getD_zip (makeReplaced (α := α)) s1 s0 (s0.length - s1.length)
        (by omega)
      rw [e1]
      have swap : (List.range s1.length).map
            (fun i => makeReplaced (s0.getD (i + (s0.length - s1.length)) default)
              (s1.getD i default)) =
          (List.range s1.length).map
            (fun i => makeReplaced (s0.getD ((s0.length - s1.length) + i) default)
              (s1.getD i default)) := by
        refine List.map_congr_left ?_
        intro i _
        rw [Nat.add_comm]
      rw [swap, e2]
    · simp only [if_neg h]
      have hle : s0.length ≤ s1.length := by omega
      have e1 := range_map_getD_zip (fun a b => makeReplaced (α := α) b a) s0 s1 0
        (by omega)
      have e2 := range_map_getD_drop (toExt (α := α)) (s1.length - s0.length) s0.length s1
        (by omega)
      simp only [Nat.zero_add, List.drop_zero] at e1
      rw [e1, e2, zipWith_take_right makeReplaced s0 s1,
        List.zipWith_comm makeReplaced s0 s1]
  · intro v w
    exact ⟨rfl, rfl⟩

/-! ## Claim C5: the applier fails exactly on a missing anchor -/

theorem getPos_none_iff (a : String) :
    ∀ (lines : List Line), getPos lines a = none ↔ a ∉ lines.map Line.id := by
  intro lines
  induction lines with
  | nil => simp [getPos]
  | cons l rest ih =>
    by_cases h : l.id = a
    · simp [getPos, h]
    · simp [getPos, h, Option.map_eq_none', ih, Ne.symm h]

theorem getPos_some_mem (a : String) :
    ∀ (lines : List Line) (p : Nat), getPos lines a = some p → a ∈ lines.map Line.id := by
  intro lines
  induction lines with
  | nil => intro p h; simp [getPos] at h
  | cons l rest ih =>
    intro p h
    by_cases hl : l.id = a
    · simp [hl]
    · simp only [getPos, if_neg hl, Option.map_eq_some'] at h
      obtain ⟨q, hq, _⟩ := h
      simp [ih q hq]

theorem spliceIns_map_id (a : String) (x : Line) :
    ∀ (lines : List Line) (p : Nat), getPos lines a = some p →
      (spliceIns lines p x).map Line.id = insertBeforeId (lines.map Line.id) a x.id := by
  intro lines
  induction lines with
  | nil => intro p h; simp [getPos] at h
  | cons l rest ih =>
    intro p h
    by_cases hl : l.id = a
    · simp only [getPos, if_pos hl] at h
      obtain rfl : (0 : Nat) = p := Option.some.inj h
      simp [spliceIns, insertBeforeId, hl]
    · simp only [getPos, if_neg hl, Option.map_eq_some'] at h
      obtain ⟨q, hq, hp⟩ := h
      subst hp
      simp only [spliceIns, List.take_succ_cons, List.drop_succ_cons, List.map_cons,
        List.cons_append, insertBeforeId, if_neg hl]
      exact congrArg (l.id :: ·) (ih q hq)

theorem spliceDel_map_id (a : String) :
    ∀ (lines : List Line) (p : Nat), getPos lines a = some p →
      (spliceDel lines p).map Line.id = removeFirstId (lines.map Line.id) a := by
  intro lines
  induction lines with
  | nil => intro p h; simp [getPos] at h
  | cons l rest ih =>
    intro p h
    by_cases hl : l.id = a
    · simp only [getPos, if_pos hl] at h
      obtain rfl : (0 : Nat) = p := Option.some.inj h
      simp [spliceDel, removeFirstId, hl]
    · simp only [getPos, if_neg hl, Option.map_eq_some'] at h
      obtain ⟨q, hq, hp⟩ := h
      subst hp
      simp only [spliceDel, List.take_succ_cons, List.drop_succ_cons, List.map_cons,
        List.cons_append, removeFirstId, if_neg hl]
      exact congrArg (l.id :: ·) (ih q hq)

theorem set_map_id (a t : String) (u : Option Nat) :
    ∀ (lines : List Line) (p : Nat), getPos lines a = some p →
      (lines.set p { lines.getD p default with text := t, updated := u }).map Line.id =
        lines.map Line.id := by
  intro lines
  induction lines with
  | nil => intro p h; simp [getPos] at h
  | cons l rest ih =>
    intro p h
    by_cases hl : l.id = a
    · simp only [getPos, if_pos hl] at h
      obtain rfl : (0 : Nat) = p := Option.some.inj h
      simp [List.set]
    · simp only [getPos, if_neg hl, Option.map_eq_some'] at h
      obtain ⟨q, hq, hp⟩ := h
      subst hp
      simp only [List.set, List.getD_cons_succ, List.map_cons]
      exact congrArg (l.id :: ·) (ih q hq)

/-- Claim C5: `applyCommit` returns `ok` exactly when every `_insert`
anchor (other than `"_end"`), `_update` anchor and `_delete` anchor is
present in the line list produced by all prior ops of the batch, and on
the first absent anchor it fails with the `RangeError` naming that
anchor's id. -/
theorem applyCommit_missingAnchor_iff (up : UpdatedParam) (userId : String) :
    ∀ (changes : List ChangeOp) (lines : List Line),
      match applyCommit up userId lines changes with
      | .ok _ => firstMissingAnchor (lines.map Line.id) changes = none
      | .error e =>
        ∃ a, firstMissingAnchor (lines.map Line.id) changes = some a ∧ e = missingMsg a := by
  intro changes
  induction changes with
  | nil => intro lines; simp [applyCommit, firstMissingAnchor]
  | cons c rest ih =>
    intro lines
    cases c with
    | insertOp anchor newId text =>
      by_cases he : anchor = "_end"
      · subst he
        have h1 : applyCommit up userId lines (ChangeOp.insertOp "_end" newId text :: rest) =
            applyCommit up userId
              (lines ++ [(⟨newId, text, userId, getUnixTimeFromId newId,
                some (getUnixTimeFromId newId)⟩ : Line)]) rest := by
          simp [applyCommit, applyOne]
        have h2 : firstMissingAnchor (lines.map Line.id)
              (ChangeOp.insertOp "_end" newId text :: rest) =
            firstMissingAnchor
              ((lines ++ [(⟨newId, text, userId, getUnixTimeFromId newId,
                some (getUnixTimeFromId newId)⟩ : Line)]).map Line.id) rest := by
          simp [firstMissingAnchor]
        rw [h1, h2]
        exact ih _
      · cases hp : getPos lines anchor with
        | none =>
          have hmem : anchor ∉ lines.map Line.id := (getPos_none_iff anchor lines).mp hp
          have h1 : applyCommit up userId lines (ChangeOp.insertOp anchor newId text :: rest) =
              .error (missingMsg anchor) := by
            simp [applyCommit, applyOne, he, hp]
          rw [h1]
          exact ⟨anchor, by simp [firstMissingAnchor, he, hmem], rfl⟩
        | some p =>
          have hmem : anchor ∈ lines.map Line.id := getPos_some_mem anchor lines p hp
          have h1 : applyCommit up userId lines (ChangeOp.insertOp anchor newId text :: rest) =
              applyCommit up userId
                (spliceIns lines p (⟨newId, text, userId, getUnixTimeFromId newId,
                  some (getUnixTimeFromId newId)⟩ : Line)) rest := by
            simp [applyCommit, applyOne, he, hp]
          have h2 : firstMissingAnchor (lines.map Line.id)
                (ChangeOp.insertOp anchor newId text :: rest) =
              firstMissingAnchor
                ((spliceIns lines p ⟨newId, text, userId, getUnixTimeFromId newId,
                  some (getUnixTimeFromId newId)⟩).map Line.id) rest := by
            rw [spliceIns_map_id anchor _ lines p hp]
            simp [firstMissingAnchor, he, hmem]
          rw [h1, h2]
          exact ih _
    | updateOp anchor text =>
      cases hp : getPos lines anchor with
      | none =>
        have hmem : anchor ∉ lines.map Line.id := (getPos_none_iff anchor lines).mp hp
        have h1 : applyCommit up userId lines (ChangeOp.updateOp anchor text :: rest) =
            .error (missingMsg anchor) := by
          simp [applyCommit, applyOne, hp]
        rw [h1]
        exact ⟨anchor, by simp [firstMissingAnchor, hmem], rfl⟩
      | some p =>
        have hmem : anchor ∈ lines.map Line.id := getPos_some_mem anchor lines p hp
        have h1 : applyCommit up userId lines (ChangeOp.updateOp anchor text :: rest) =
            applyCommit up userId
              (lines.set p { lines.getD p default with text := text, updated := updatedValue up })
              rest := by
          simp [applyCommit, applyOne, hp]
        have h2 : firstMissingAnchor (lines.map Line.id)
              (ChangeOp.updateOp anchor text :: rest) =
            firstMissingAnchor
              ((lines.set p { lines.getD p default with text := text, updated := updatedValue up }).map
                Line.id) rest := by
          rw [set_map_id anchor text (updatedValue up) lines p hp]
          simp [firstMissingAnchor, hmem]
        rw [h1, h2]
        exact ih _
    | deleteOp anchor =>
      cases hp : getPos lines anchor with
      | none =>
        have hmem : anchor ∉ lines.map Line.id := (getPos_none_iff anchor lines).mp hp
        have h1 : applyCommit up userId lines (ChangeOp.deleteOp anchor :: rest) =
            .error (missingMsg anchor) := by
          simp [applyCommit, applyOne, hp]
        rw [h1]
        exact ⟨anchor, by simp [firstMissingAnchor, hmem], rfl⟩
      | some p =>
        have hmem : anchor ∈ lines.map Line.id := getPos_some_mem anchor lines p hp
        have h1 : applyCommit up userId lines (ChangeOp.deleteOp anchor :: rest) =
            applyCommit up userId (spliceDel lines p) rest := by
          simp [applyCommit, applyOne, hp]
        have h2 : firstMissingAnchor (lines.map Line.id)
              (ChangeOp.deleteOp anchor :: rest) =
            firstMissingAnchor ((spliceDel lines p).map Line.id) rest := by
          rw [spliceDel_map_id anchor lines p hp]
          simp [firstMissingAnchor, hmem]
        rw [h1, h2]
        exact ih _
    | titleOp text =>
      have h1 : applyCommit up userId lines (ChangeOp.titleOp text :: rest) =
          applyCommit up userId lines rest := by
        simp [applyCommit, applyOne]
      have h2 : firstMissingAnchor (lines.map Line.id) (ChangeOp.titleOp text :: rest) =
          firstMissingAnchor (lines.map Line.id) rest := by
        simp [firstMissingAnchor]
      rw [h1, h2]
      exact ih _
    | descriptionsOp texts =>
      have h1 : applyCommit up userId lines (ChangeOp.descriptionsOp texts :: rest) =
          applyCommit up userId lines rest := by
        simp [applyCommit, applyOne]
      have h2 : firstMissingAnchor (lines.map Line.id)
            (ChangeOp.descriptionsOp texts :: rest) =
          firstMissingAnchor (lines.map Line.id) rest := by
        simp [firstMissingAnchor]
      rw [h1, h2]
      exact ih _
    | deletedOp =>
      have h1 : applyCommit up userId lines (ChangeOp.deletedOp :: rest) =
          applyCommit up userId lines rest := by
        simp [applyCommit, applyOne]
      have h2 : firstMissingAnchor (lines.map Line.id) (ChangeOp.deletedOp :: rest) =
          firstMissingAnchor (lines.map Line.id) rest := by
        simp [firstMissingAnchor]
      rw [h1, h2]
      exact ih _

/-! ## Claim C8 (amended): the shape of a minted line id -/

theorem hexVal_hexDigit (m : Nat) (h : m < 16) : hexVal (hexDigit m) = m := by
  interval_cases m <;> rfl

theorem isHexDigitCh_hexDigit (m : Nat) (h : m < 16) : isHexDigitCh (hexDigit m) = true := by
  interval_cases m <;> rfl

theorem parseHex_from (l : List Char) :
    ∀ acc, l.foldl (fun a c => a * 16 + hexVal c) acc = acc * 16 ^ l.length + parseHex l := by
  induction l with
  | nil => intro acc; simp [parseHex]
  | cons c cs ih =>
    intro acc
    have h1 : (c :: cs).foldl (fun a c => a * 16 + hexVal c) acc =
        cs.foldl (fun a c => a * 16 + hexVal c) (acc * 16 + hexVal c) := rfl
    have h2 : parseHex (c :: cs) = cs.foldl (fun a c => a * 16 + hexVal c) (hexVal c) := by
      simp [parseHex]
    rw [h1, ih (acc * 16 + hexVal c), h2, ih (hexVal c), List.length_cons]
    ring

theorem parseHex_append (l1 l2 : List Char) :
    parseHex (l1 ++ l2) = parseHex l1 * 16 ^ l2.length + parseHex l2 := by
  have h : parseHex (l1 ++ l2) = l2.foldl (fun a c => a * 16 + hexVal c) (parseHex l1) := by
    simp [parseHex, List.foldl_append]
  rw [h, parseHex_from l2 (parseHex l1)]

theorem parseHex_replicate_zero (k : Nat) : parseHex (List.replicate k '0') = 0 := by
  induction k with
  | zero => rfl
  | succ k ih => exact ih

theorem parseHex_hexChars : ∀ (fuel n : Nat), n < 16 ^ fuel → parseHex (hexChars fuel n) = n := by
  intro fuel
  induction fuel with
  | zero =>
    intro n h
    interval_cases n
    rfl
  | succ fuel ih =>
    intro n h
    by_cases hn : n = 0
    · simp [hexChars, hn, parseHex]
    · have hdiv : n / 16 < 16 ^ fuel := by
        refine Nat.div_lt_of_lt_mul ?_
        calc n < 16 ^ (fuel + 1) := h
        _ = 16 * 16 ^ fuel := by ring
      have hmod : n % 16 < 16 := Nat.mod_lt n (by omega)
      rw [hexChars, if_neg hn, parseHex_append, ih (n / 16) hdiv]
      have h1 : parseHex [hexDigit (n % 16)] = n % 16 := by
        show 0 * 16 + hexVal (hexDigit (n % 16)) = n % 16
        rw [hexVal_hexDigit (n % 16) hmod]
        omega
      rw [h1, List.length_singleton, pow_one]
      omega

theorem parseHex_toHex (n : Nat) (h : n < 16 ^ 16) : parseHex (toHex n) = n := by
  by_cases hn : n = 0
  · simp [toHex, hn]
    rfl
  · rw [toHex, if_neg hn]
    exact parseHex_hexChars 16 n h

theorem hexChars_length (fuel : Nat) :
    ∀ (j n : Nat), n < 16 ^ j → j ≤ fuel → (hexChars fuel n).length ≤ j := by
  induction fuel with
  | zero => intro j n _ _; simp [hexChars]
  | succ fuel ih =>
    intro j n h hj
    by_cases hn : n = 0
    · simp [hexChars, hn]
    · have hj1 : 1 ≤ j := by
        by_contra hc
        have : j = 0 := by omega
        subst this
        simp at h
        omega
      have hdiv : n / 16 < 16 ^ (j - 1) := by
        refine Nat.div_lt_of_lt_mul ?_
        calc n < 16 ^ j := h
        _ = 16 * 16 ^ (j - 1) := by
            rw [← pow_succ']
            congr 1
            omega
      rw [hexChars, if_neg hn]
      have := ih (j - 1) (n / 16) hdiv (by omega)
      simp only [List.length_append, List.length_singleton]
      omega

theorem toHex_length_le (n j : Nat) (h : n < 16 ^ j) (h1 : 1 ≤ j) (h2 : j ≤ 16) :
    (toHex n).length ≤ j := by
  by_cases hn : n = 0
  · simp [toHex, hn]
    omega
  · rw [toHex, if_neg hn]
    exact hexChars_length 16 j n h h2

theorem toHex_mem_hex (n : Nat) : ∀ c ∈ toHex n, isHexDigitCh c = true := by
  by_cases hn : n = 0
  · intro c hc
    simp [toHex, hn] at hc
    subst hc
    rfl
  · rw [toHex, if_neg hn]
    clear hn
    generalize 16 = fuel
    induction fuel generalizing n with
    | zero => intro c hc; simp [hexChars] at hc
    | succ fuel ih =>
      intro c hc
      by_cases hz : n = 0
      · simp [hexChars, hz] at hc
      · rw [hexChars, if_neg hz] at hc
        rcases List.mem_append.mp hc with h | h
        · exact ih (n / 16) c h
        · have : c = hexDigit (n % 16) := by simpa using h
          subst this
          exact isHexDigitCh_hexDigit (n % 16) (Nat.mod_lt n (by omega))

theorem padLeft8_parseHex (l : List Char) : parseHex (padLeft8 l) = parseHex l := by
  unfold padLeft8
  rw [parseHex_append, parseHex_replicate_zero]
  omega

theorem padLeft8_length (l : List Char) (h : l.length ≤ 8) : (padLeft8 l).length = 8 := by
  unfold padLeft8
  simp
  omega

theorem takeLast_all (n : Nat) (l : List Char) (h : l.length ≤ n) : takeLast n l = l := by
  unfold takeLast
  have : l.length - n = 0 := by omega
  rw [this, List.drop_zero]

theorem takeLast_length (n : Nat) (l : List Char) : (takeLast n l).length = min n l.length := by
  unfold takeLast
  simp
  omega

theorem takeLast_sub (n : Nat) (l : List Char) : ∀ c ∈ takeLast n l, c ∈ l := by
  intro c hc
  exact List.mem_of_mem_drop hc

theorem take_len_append (l1 l2 : List γ) (n : Nat) (h : l1.length = n) :
    (l1 ++ l2).take n = l1 := by
  subst h
  exact List.take_left l1 l2

theorem drop_len_append (l1 l2 : List γ) (n : Nat) (h : l1.length = n) :
    (l1 ++ l2).drop n = l2 := by
  subst h
  exact List.drop_left l1 l2

/-- Claim C8, amended: for every userId of length at least 6 whose last
6 characters are hex digits, `createNewLineId` returns a 26-hex-char
string (not 24: the random component is zero-padded to 8 digits) whose
first 8 hex chars encode the unix-seconds wall clock at call time — so
`getUnixTimeFromId` of the id returns that clock second exactly — and
whose characters at positions 9–14 equal `userId.slice(-6)`. -/
theorem createNewLineId_spec (now rand : Nat) (u : String)
    (hnow : now < 4294967296) (hrand : rand < 16777214)
    (hlen : 6 ≤ u.length) (hhex : ∀ c ∈ takeLast 6 u.data, isHexDigitCh c = true) :
    (createNewLineId now rand u).length = 26 ∧
      (∀ c ∈ (createNewLineId now rand u).data, isHexDigitCh c = true) ∧
      getUnixTimeFromId (createNewLineId now rand u) = now ∧
      ((createNewLineId now rand u).data.drop 8).take 6 = takeLast 6 u.data := by
  have hnow16 : now < 16 ^ 8 := by norm_num at hnow ⊢; omega
  have hTlen0 : (toHex now).length ≤ 8 := toHex_length_le now 8 hnow16 (by omega) (by omega)
  have hT : takeLast 8 (padLeft8 (toHex now)) = padLeft8 (toHex now) := by
    refine takeLast_all 8 _ ?_
    rw [padLeft8_length (toHex now) hTlen0]
  have hTlen : (takeLast 8 (padLeft8 (toHex now))).length = 8 := by
    rw [hT]
    exact padLeft8_length (toHex now) hTlen0
  have hUlen : (takeLast 6 u.data).length = 6 := by
    rw [takeLast_length]
    have : u.length = u.data.length := rfl
    omega
  have hrand16 : rand < 16 ^ 6 := by norm_num; omega
  have hRlen0 : (toHex rand).length ≤ 8 :=
    le_trans (toHex_length_le rand 6 hrand16 (by omega) (by omega)) (by omega)
  have hRlen : (padLeft8 (toHex rand)).length = 8 := padLeft8_length (toHex rand) hRlen0
  have hdata : (createNewLineId now rand u).data =
      takeLast 8 (padLeft8 (toHex now)) ++ (takeLast 6 u.data ++
        (List.replicate 4 '0' ++ padLeft8 (toHex rand))) := by
    simp [createNewLineId]
  refine ⟨?_, ?_, ?_, ?_⟩
  · show (createNewLineId now rand u).data.length = 26
    rw [hdata]
    simp only [List.length_append, List.length_replicate]
    omega
  · intro c hc
    rw [hdata] at hc
    rcases List.mem_append.mp hc with h | h
    · rw [hT] at h
      rcases List.mem_append.mp h with h | h
      · have : c = '0' := List.eq_of_mem_replicate h
        subst this
        rfl
      · exact toHex_mem_hex now c h
    rcases List.mem_append.mp h with h | h
    · exact hhex c h
    rcases List.mem_append.mp h with h | h
    · have : c = '0' := List.eq_of_mem_replicate h
      subst this
      rfl
    · rcases List.mem_append.mp h with h | h
      · have : c = '0' := List.eq_of_mem_replicate h
        subst this
        rfl
      · exact toHex_mem_hex rand c h
  · show parseHex ((createNewLineId now rand u).data.take 8) = now
    have hPlen : (padLeft8 (toHex now)).length = 8 := padLeft8_length (toHex now) hTlen0
    rw [hdata, hT, take_len_append _ _ 8 hPlen, padLeft8_parseHex]
    exact parseHex_toHex now (lt_of_lt_of_le hnow16 (by norm_num))
  · have hPlen : (padLeft8 (toHex now)).length = 8 := padLeft8_length (toHex now) hTlen0
    rw [hdata, hT, drop_len_append _ _ 8 hPlen, take_len_append _ _ 6 hUlen]

/-- Claim C8, witness: the amended statement evaluated at wall clock
1700000000, random component 12345 and a 24-hex-char userId. -/
theorem createNewLineId_spec_witness :
    (createNewLineId 1700000000 12345 "5f2c1234567890abcdef1234").length = 26 ∧
      (∀ c ∈ (createNewLineId 1700000000 12345 "5f2c1234567890abcdef1234").data,
        isHexDigitCh c = true) ∧
      getUnixTimeFromId (createNewLineId 1700000000 12345 "5f2c1234567890abcdef1234") =
        1700000000 ∧
      ((createNewLineId 1700000000 12345 "5f2c1234567890abcdef1234").data.drop 8).take 6 =
        takeLast 6 "5f2c1234567890abcdef1234".data :=
  createNewLineId_spec 1700000000 12345 "5f2c1234567890abcdef1234"
    (by decide) (by decide) (by decide) (by decide)

/-! ## Claim C10: the empty pre-image always fails

`diffToChanges` reads `left[0].id` before its loop; to show the failure
is reached for EVERY post-image we first show the eager `diff` call that
precedes the read terminates when the `a` side is empty: phase `p = 0`
walks the ascending diagonals `0 … delta − 1` with no snake extension
(`a` is empty), reaching `fp[delta] = b.length` at once. -/

theorem getI_nil (x : Int) : getI ([] : List String) x = none := by
  unfold getI
  split <;> simp

theorem getI_isSome (b : List String) (y : Int) (h0 : 0 ≤ y) (h1 : y < (b.length : Int)) :
    (getI b y).isSome = true := by
  unfold getI
  rw [if_neg (by omega)]
  have hy : y.toNat < b.length := by omega
  simp [List.getElem?_eq_getElem hy]

theorem snakeExt_nil (b : List String) (n : Nat) (x y : Int) (h0 : 0 ≤ y) :
    snakeExt ([] : List String) b (n + 1) x y = (x, y) := by
  rw [snakeExt, if_neg]
  rintro ⟨h1, h2, h3⟩
  rw [getI_nil] at h3
  have hs := getI_isSome b y h0 h2
  rw [← h3] at hs
  simp at hs

theorem diffStep_append (a b : List String) (offset : Int) (l1 l2 : List Int) (st : DiffSt) :
    diffStep a b offset (l1 ++ l2) st = diffStep a b offset l2 (diffStep a b offset l1 st) := by
  simp [diffStep, List.foldl_append]

theorem diffStep_nil_single_fp (b : List String) (k : Int) (st : DiffSt)
    (hy : 0 ≤ max (st.fp (k - 1 + 1) + 1) (st.fp (k + 1 + 1))) (j : Int) :
    (diffStep ([] : List String) b 1 [k] st).fp j =
      if j = k + 1 then max (st.fp (k - 1 + 1) + 1) (st.fp (k + 1 + 1)) else st.fp j := by
  simp only [diffStep, List.foldl_cons, List.foldl_nil, snake,
    snakeExt_nil b b.length _ _ hy, updF]

theorem diffStep_nil_asc (b : List String) :
    ∀ (m : Nat) (st : DiffSt),
      (∀ k : Int, st.fp k = if 1 ≤ k ∧ k ≤ (0 : Int) then k - 1 else -1) →
      ∀ k : Int,
        (diffStep ([] : List String) b 1 ((List.range m).map Int.ofNat) st).fp k =
          if 1 ≤ k ∧ k ≤ (m : Int) then k - 1 else -1 := by
  intro m
  induction m with
  | zero =>
    intro st hst k
    simpa [diffStep] using hst k
  | succ m ih =>
    intro st hst k
    rw [List.range_succ, List.map_append, diffStep_append]
    have hm := ih st hst
    have hp : (diffStep ([] : List String) b 1 ((List.range m).map Int.ofNat) st).fp
          ((m : Int) - 1 + 1) + 1 = (m : Int) := by
      rw [hm ((m : Int) - 1 + 1)]
      by_cases h1 : (1 : Int) ≤ (m : Int) - 1 + 1
      · rw [if_pos ⟨h1, by omega⟩]
        omega
      · rw [if_neg (by omega)]
        omega
    have hpp : (diffStep ([] : List String) b 1 ((List.range m).map Int.ofNat) st).fp
          ((m : Int) + 1 + 1) = -1 := by
      rw [hm ((m : Int) + 1 + 1)]
      rw [if_neg (by omega)]
    have hy : (0 : Int) ≤
        max ((diffStep ([] : List String) b 1 ((List.range m).map Int.ofNat) st).fp
            ((m : Int) - 1 + 1) + 1)
          ((diffStep ([] : List String) b 1 ((List.range m).map Int.ofNat) st).fp
            ((m : Int) + 1 + 1)) := by
      rw [hpp]
      omega
    rw [List.map_singleton, show Int.ofNat m = (m : Int) from rfl,
      diffStep_nil_single_fp b (m : Int) _ hy k, hp, hpp,
      max_eq_left (by omega : (-1 : Int) ≤ (m : Int))]
    by_cases hk : k = (m : Int) + 1
    · rw [if_pos hk, if_pos ⟨by omega, by push_cast; omega⟩]
      omega
    · rw [if_neg hk, hm k]
      by_cases h1 : (1 : Int) ≤ k ∧ k ≤ (m : Int)
      · rw [if_pos h1, if_pos ⟨h1.1, by push_cast; omega⟩]
      · rw [if_neg h1, if_neg (by push_cast at h1 ⊢; omega)]

theorem onpLoop_stop (a b : List String) (offset delta : Int) (fuel : Nat) (p : Int)
    (st : DiffSt)
    (h : (diffStep a b offset (ascKs (p + 1) delta ++ descKs (p + 1) delta ++ [delta]) st).fp
        (delta + offset) = (b.length : Int)) :
    onpLoop a b offset delta (fuel + 1) p st =
      some (p + 1, diffStep a b offset (ascKs (p + 1) delta ++ descKs (p + 1) delta ++ [delta]) st) := by
  rw [onpLoop]
  simp only [h, if_pos]

theorem ascKs_zero (n : Nat) : ascKs 0 (n : Int) = (List.range n).map Int.ofNat := by
  unfold ascKs
  have h1 : ((n : Int) + 0).toNat = n := by simp
  rw [h1]
  refine List.map_congr_left ?_
  intro i _
  show -0 + Int.ofNat i = Int.ofNat i
  simp

theorem diff_nil_terminates (right : List String) :
    ∃ d, diff ([] : List String) right = some d := by
  have hst0 : ∀ k : Int,
      (({ fp := fun _ => -1, path := fun _ => -1, pathpos := [] } : DiffSt)).fp k =
        if 1 ≤ k ∧ k ≤ (0 : Int) then k - 1 else -1 := by
    intro k
    rw [if_neg (by omega)]
  have hasc := diffStep_nil_asc right right.length
    ({ fp := fun _ => -1, path := fun _ => -1, pathpos := [] } : DiffSt) hst0
  have hp : (diffStep ([] : List String) right 1 ((List.range right.length).map Int.ofNat)
        ({ fp := fun _ => -1, path := fun _ => -1, pathpos := [] } : DiffSt)).fp
        ((right.length : Int) - 1 + 1) + 1 = (right.length : Int) := by
    rw [hasc ((right.length : Int) - 1 + 1)]
    by_cases h1 : (1 : Int) ≤ (right.length : Int) - 1 + 1
    · rw [if_pos ⟨h1, by omega⟩]
      omega
    · rw [if_neg (by omega)]
      omega
  have hpp : (diffStep ([] : List String) right 1 ((List.range right.length).map Int.ofNat)
        ({ fp := fun _ => -1, path := fun _ => -1, pathpos := [] } : DiffSt)).fp
        ((right.length : Int) + 1 + 1) = -1 := by
    rw [hasc ((right.length : Int) + 1 + 1), if_neg (by omega)]
  have hy : (0 : Int) ≤
      max ((diffStep ([] : List String) right 1 ((List.range right.length).map Int.ofNat)
          ({ fp := fun _ => -1, path := fun _ => -1, pathpos := [] } : DiffSt)).fp
          ((right.length : Int) - 1 + 1) + 1)
        ((diffStep ([] : List String) right 1 ((List.range right.length).map Int.ofNat)
          ({ fp := fun _ => -1, path := fun _ => -1, pathpos := [] } : DiffSt)).fp
          ((right.length : Int) + 1 + 1)) := by
    rw [hpp]
    omega
  have hfinal : (diffStep ([] : List String) right 1
        (ascKs ((-1 : Int) + 1) (right.length : Int) ++
          descKs ((-1 : Int) + 1) (right.length : Int) ++ [(right.length : Int)])
        ({ fp := fun _ => -1, path := fun _ => -1, pathpos := [] } : DiffSt)).fp
        ((right.length : Int) + 1) = (right.length : Int) := by
    rw [show ((-1 : Int) + 1) = 0 from rfl, ascKs_zero right.length,
      show descKs 0 (right.length : Int) = [] from rfl, List.append_nil, diffStep_append,
      diffStep_nil_single_fp right (right.length : Int) _ hy ((right.length : Int) + 1),
      if_pos rfl, hp, hpp]
    omega
  have hrev : ¬ ((right.length : Int) < (0 : Int)) := by simp
  simp only [diff, List.length_nil, Nat.cast_zero, if_neg hrev, zero_add, sub_zero, Nat.zero_add]
  rw [onpLoop_stop ([] : List String) right 1 (right.length : Int) 0 (-1) _ hfinal]
  exact ⟨_, rfl⟩

/-- Claim C10: for the empty pre-image, `diffToChanges` fails on every
call — including when the post-image is also empty — because it reads
`left[0].id` before examining any diff element (the eager `diff` call
that precedes the read terminates, with edit distance `right.length`,
by `diff_nil_terminates`); it yields no op and never completes normally,
so a non-empty pre-image is a precondition of the generator. -/
theorem diffToChanges_empty_left_fails (newIds : Nat → String) (right : List String) :
    diffToChanges newIds [] right = .error "TypeError: left[0] is undefined" := by
  obtain ⟨d, hd⟩ := diff_nil_terminates right
  unfold diffToChanges
  rw [show (([] : List IdText).map (fun l => l.text)) = ([] : List String) from rfl, hd]

end Scrapbox
